import Mathlib

/-!
Verification of the fs-mcp multi-repository file server core.

The Go sources are shallowly embedded: paths are Lean `String`s (kernel form:
lists of characters), the Unix variants of the `path/filepath` library
functions used by the repository (`Clean`, `Join`, `Abs`, `Rel`, `Base`) are
translated segment-faithfully, and the repository functions `ValidatePath`
(repository.go), `validatePath` / `shouldSkip` / `reloadConfig` /
`handleReadFile` (main.go), `ParseRepository` (repository.go), and the SSH
pool (`connectionKey`, `getConnection`, `connect`, `Close`) and
`RemoteFS.ReadFile` are translated on top of them.  Effectful calls (disk,
network) are abstracted by explicit environment records recording each
outcome of the underlying library call.
-/

/- ### Character-list path plumbing (Unix separator) -/

/-- Split a character list at every separator, like Go `strings.Split(s, "/")`:
the result always has one more element than the number of separators. -/
def splitSlash : List Char → List (List Char)
  | [] => [[]]
  | c :: cs =>
    if c = '/' then [] :: splitSlash cs
    else
      match splitSlash cs with
      | [] => [[c]]
      | s :: rest => (c :: s) :: rest

/-- Join segments with the separator, like Go `strings.Join(segs, "/")`. -/
def joinSlash : List (List Char) → List Char
  | [] => []
  | [s] => s
  | s :: rest => s ++ '/' :: joinSlash rest

/-- Boolean prefix test on character lists (Go `strings.HasPrefix`). -/
def leadsWith : List Char → List Char → Bool
  | [], _ => true
  | _ :: _, [] => false
  | a :: as, b :: bs => a = b && leadsWith as bs

/-- Boolean prefix test on segment lists. -/
def segsLead : List (List Char) → List (List Char) → Bool
  | [], _ => true
  | _ :: _, [] => false
  | a :: as, b :: bs => a = b && segsLead as bs

/-- Segments of a path string, separators and empty components removed. -/
def segsNE (cs : List Char) : List (List Char) :=
  (splitSlash cs).filter (fun l => decide (l ≠ []))

/-- Raw segments as consumed by Go `filepath.Clean`: empty components and
single-dot components are skipped outright. -/
def rawsegs (cs : List Char) : List (List Char) :=
  (splitSlash cs).filter (fun l => decide (l ≠ [] ∧ l ≠ ['.']))

/-- One step of the `filepath.Clean` element loop: a `..` segment pops the
last non-`..` element; at the root it is dropped, otherwise it is kept. -/
def cleanStep (rooted : Bool) (acc : List (List Char)) (seg : List Char) :
    List (List Char) :=
  if seg = ['.', '.'] then
    if acc ≠ [] ∧ acc.getLast? ≠ some ['.', '.'] then acc.dropLast
    else if rooted then acc
    else acc ++ [seg]
  else acc ++ [seg]

/-- The element loop of Go `filepath.Clean`. -/
def cleanList (rooted : Bool) (segs : List (List Char)) : List (List Char) :=
  List.foldl (cleanStep rooted) [] segs

/-- Render a rooted flag and segment list back to a path string, as
`filepath.Clean` does: empty output becomes "/" or ".". -/
def toPathString (rooted : Bool) (segs : List (List Char)) : String :=
  if segs = [] then (if rooted then "/" else ".")
  else String.mk ((if rooted then ['/'] else []) ++ joinSlash segs)

/-- Go `filepath.IsAbs` on Unix: the path begins with a separator. -/
def goIsAbs (s : String) : Bool :=
  leadsWith ['/'] s.data

/-- Go `filepath.Clean` (Unix). -/
def goClean (s : String) : String :=
  toPathString (goIsAbs s) (cleanList (goIsAbs s) (rawsegs s.data))

/-- Go `filepath.Join(a, b)` (Unix): empty elements are skipped, the rest are
joined with a separator and cleaned. -/
def goJoin (a b : String) : String :=
  if a.data = [] then (if b.data = [] then "" else goClean b)
  else goClean (String.mk (a.data ++ '/' :: b.data))

/-- Go `filepath.Abs` (Unix), with the working directory made explicit:
absolute paths are cleaned, relative ones are joined onto `cwd`. -/
def goAbs (cwd s : String) : String :=
  if goIsAbs s then goClean s else goJoin cwd s

/-- Drop the longest common leading run of two segment lists, as the
first-differing-element loop of Go `filepath.Rel` does. -/
def dropCommon : List (List Char) → List (List Char) →
    List (List Char) × List (List Char)
  | a :: as, b :: bs => if a = b then dropCommon as bs else (a :: as, b :: bs)
  | as, bs => (as, bs)

/-- Go `filepath.Rel(basepath, targpath)` (Unix, no volume names): clean both,
compare element-wise, and build a `..`-chain for the remaining base
elements. `none` models the error return. -/
def goRel (basepath targpath : String) : Option String :=
  let base := goClean basepath
  let targ := goClean targpath
  if base = targ then some "."
  else
    let baseStr := if base = "." then "" else base
    if (goIsAbs baseStr ≠ goIsAbs targ) then none
    else
      let p := dropCommon (segsNE baseStr.data) (segsNE targ.data)
      if p.1.head? = some ['.', '.'] then none
      else if p.1 = [] then some (String.mk (joinSlash p.2))
      else
        some (String.mk (joinSlash (List.replicate p.1.length ['.', '.'] ++ p.2)))

/-- Go `filepath.Base` (Unix): strip trailing separators, then take the part
after the last separator; empty input gives ".", all-separator input "/". -/
def goBase (s : String) : String :=
  if s.data = [] then "."
  else
    let p := (s.data.reverse.dropWhile (fun c => c = '/')).reverse
    let last := (p.reverse.takeWhile (fun c => c ≠ '/')).reverse
    if last = [] then "/" else String.mk last

/- ### repository.go and main.go path functions -/

/-- ValidatePath from repository.go: join the request onto the absolute base,
make it absolute, take it relative to the base, and reject results whose
string form starts with "..", returning the relative path otherwise. The
working directory consumed by `filepath.Abs` is the explicit `cwd`. -/
def ValidatePath (cwd basePath requestedPath : String) : Except String String :=
  let absBasePath := goAbs cwd basePath
  let targetPath := goJoin absBasePath requestedPath
  let absTargetPath := goAbs cwd targetPath
  match goRel absBasePath absTargetPath with
  | none => .error ("path traversal detected: " ++ requestedPath)
  | some relPath =>
    if leadsWith ['.', '.'] relPath.data then
      .error ("path traversal detected: " ++ requestedPath)
    else .ok relPath

/-- validatePath from main.go: identical computation, but the absolute target
path is returned on success instead of the relative one. -/
def validatePath (cwd repoPath requestedPath : String) : Except String String :=
  let absRepoPath := goAbs cwd repoPath
  let targetPath := goJoin absRepoPath requestedPath
  let absTargetPath := goAbs cwd targetPath
  match goRel absRepoPath absTargetPath with
  | none => .error ("path traversal detected: " ++ requestedPath)
  | some relPath =>
    if leadsWith ['.', '.'] relPath.data then
      .error ("path traversal detected: " ++ requestedPath)
    else .ok absTargetPath

/-- shouldSkip from main.go: skip when the base name starts with "." or is
exactly "node_modules". -/
def shouldSkip (path : String) : Bool :=
  let base := goBase path
  if leadsWith ['.'] base.data then true
  else if base = "node_modules" then true
  else false

instance {ε α : Type} [DecidableEq ε] [DecidableEq α] : DecidableEq (Except ε α) :=
  fun x y =>
  match x, y with
  | .ok a, .ok b =>
    if h : a = b then .isTrue (by rw [h]) else .isFalse (by intro hh; cases hh; exact h rfl)
  | .error a, .error b =>
    if h : a = b then .isTrue (by rw [h]) else .isFalse (by intro hh; cases hh; exact h rfl)
  | .ok _, .error _ => .isFalse (by intro hh; cases hh)
  | .error _, .ok _ => .isFalse (by intro hh; cases hh)

/- ### Repository descriptors and configuration (repository.go, main.go) -/

/-- Repository from repository.go. Field names follow the Go struct
(`Type`, `Path`, `Host`, `Port`, `User`, `KeyFile`); `rtype` stands for the
Go `Type` field, and the Go `int` port is modelled as `Nat` (ports are
non-negative). -/
structure Repository where
  rtype : String
  path : String
  host : String
  port : Nat
  user : String
  keyFile : String
deriving DecidableEq

/-- The JSON object shape `json.Unmarshal` produces for a structured
repository entry: absent string fields decode to "" and an absent port to 0
(the Go zero values). -/
structure RepoObj where
  rtype : String
  path : String
  host : String
  port : Nat
  user : String
  keyFile : String
deriving DecidableEq

/-- A raw configuration value for one repository: a bare JSON string, an
object, or data that unmarshals as neither. -/
inductive RawValue where
  | str (s : String)
  | obj (o : RepoObj)
  | malformed
deriving DecidableEq

/-- Errors of ParseRepository; each constructor records the repository name
embedded in the corresponding Go error message. -/
inductive ParseErr where
  | unmarshalFailed (name : String)
  | missingHost (name : String)
  | missingUser (name : String)
  | missingPath (name : String)
deriving DecidableEq

/-- Name of the offending repository carried by a ParseRepository error. -/
def ParseErr.repoName : ParseErr → String
  | .unmarshalFailed n => n
  | .missingHost n => n
  | .missingUser n => n
  | .missingPath n => n

/-- ParseRepository from repository.go. A bare string is a legacy local
path.  Objects get defaults (type local; ssh port 22; ssh key file
`~/.ssh/id_rsa`), tilde expansion against the home directory (`none` models a
failing `os.UserHomeDir`, which leaves the value unchanged), then ssh
validation of host, user and path. -/
def ParseRepository (homeDir : Option String) (name : String) (raw : RawValue) :
    Except ParseErr Repository :=
  match raw with
  | .str s => .ok ⟨"local", s, "", 0, "", ""⟩
  | .malformed => .error (.unmarshalFailed name)
  | .obj o =>
    let t := if o.rtype = "" then "local" else o.rtype
    let port := if t = "ssh" ∧ o.port = 0 then 22 else o.port
    let kf0 := if t = "ssh" ∧ o.keyFile = "" then "~/.ssh/id_rsa" else o.keyFile
    let kf :=
      if kf0 ≠ "" ∧ leadsWith ['~'] kf0.data then
        match homeDir with
        | some h => goJoin h (String.mk (kf0.data.drop 1))
        | none => kf0
      else kf0
    if t = "ssh" ∧ o.host = "" then .error (.missingHost name)
    else if t = "ssh" ∧ o.user = "" then .error (.missingUser name)
    else if t = "ssh" ∧ o.path = "" then .error (.missingPath name)
    else .ok ⟨t, o.path, o.host, port, o.user, kf⟩

/-- The published registry map, modelled as an association list in document
order. -/
abbrev RepoMap := List (String × Repository)

/-- Lookup in the registry map (Go map indexing). -/
def lookupRepo (m : RepoMap) (name : String) : Option Repository :=
  match m with
  | [] => none
  | (k, v) :: rest => if k = name then some v else lookupRepo rest name

/-- The repository-parsing loop of reloadConfig: the first failing entry
aborts the whole parse. -/
def parseRepos (homeDir : Option String) :
    List (String × RawValue) → Except ParseErr RepoMap
  | [] => .ok []
  | (name, raw) :: rest =>
    match ParseRepository homeDir name raw with
    | .error e => .error e
    | .ok repo =>
      match parseRepos homeDir rest with
      | .error e => .error e
      | .ok repos => .ok ((name, repo) :: repos)

/-- Outcome of reading and JSON-decoding the configuration file, the inputs
of reloadConfig: unreadable file, undecodable document, or a decoded list of
raw repository entries. -/
inductive ReloadInput where
  | readError
  | parseError
  | parsed (entries : List (String × RawValue))

/-- Errors reported by reloadConfig. -/
inductive ReloadErr where
  | readFailed
  | parseFailed
  | invalidRepo (e : ParseErr)
deriving DecidableEq

/-- reloadConfig from main.go: read and decode the file, parse every entry,
and only then swap the published map; any failure returns the previous map
untouched together with the error. The pair is (new published map, error). -/
def reloadConfig (homeDir : Option String) (input : ReloadInput)
    (repos : RepoMap) : RepoMap × Option ReloadErr :=
  match input with
  | .readError => (repos, some .readFailed)
  | .parseError => (repos, some .parseFailed)
  | .parsed entries =>
    match parseRepos homeDir entries with
    | .error e => (repos, some (.invalidRepo e))
    | .ok newRepos => (newRepos, none)

/- ### SSH connection pool (sshpool source file) -/

/-- Decimal digit accumulation mirroring the structure of `Nat.toDigitsCore`:
the fuel argument bounds the recursion, and `fmt.Sprintf("%d", n)` is
`decRepr n` below. -/
def decAux : Nat → Nat → List Char → List Char
  | 0, n, acc => Nat.digitChar (n % 10) :: acc
  | fuel + 1, n, acc =>
    if n < 10 then Nat.digitChar n :: acc
    else decAux fuel (n / 10) (Nat.digitChar (n % 10) :: acc)

/-- Decimal rendering of a natural number (the `%d` verb of `fmt.Sprintf`). -/
def decRepr (n : Nat) : List Char :=
  decAux n n []

/-- connectionKey from the pool source: `fmt.Sprintf("%s@%s:%d", user, host,
port)`. -/
def connectionKey (repo : Repository) : String :=
  repo.user ++ "@" ++ repo.host ++ ":" ++ String.mk (decRepr repo.port)

/-- An SSH transport session, identified by the dial that produced it. -/
structure SSHClient where
  id : Nat
deriving DecidableEq

/-- An SFTP sub-session layered over a transport session. -/
structure SftpClient where
  id : Nat
deriving DecidableEq

/-- SSHConnection from the pool source: one transport session plus one SFTP
sub-session. -/
structure SSHConnection where
  client : SSHClient
  sftp : SftpClient
deriving DecidableEq

/-- Errors of SSHPool.connect, one per failing stage. -/
inductive ConnectErr where
  | keyReadFailed
  | keyParseFailed
  | dialFailed
  | sftpFailed
deriving DecidableEq

/-- Close actions issued against library resources. -/
inductive CloseAction where
  | closeClient (c : SSHClient)
  | closeSftp (s : SftpClient)
deriving DecidableEq

/-- Outcomes of the library calls made by SSHPool.connect: key file read,
private key parse, dial, and SFTP session creation. -/
structure ConnectEnv where
  readKeyOk : Bool
  parseKeyOk : Bool
  dial : Option SSHClient
  newSftp : SSHClient → Option SftpClient

/-- SSHPool.connect from the pool source: read and parse the key, dial, layer
an SFTP client on top; if the SFTP client fails the dialed transport is
closed before the error is returned. Returns the result and the close
actions performed. -/
def sshConnect (env : ConnectEnv) : Except ConnectErr SSHConnection × List CloseAction :=
  if !env.readKeyOk then (.error .keyReadFailed, [])
  else if !env.parseKeyOk then (.error .keyParseFailed, [])
  else
    match env.dial with
    | none => (.error .dialFailed, [])
    | some client =>
      match env.newSftp client with
      | none => (.error .sftpFailed, [.closeClient client])
      | some sftpClient => (.ok ⟨client, sftpClient⟩, [])

/-- The pool map from connection keys to connections. -/
abbrev PoolMap := List (String × SSHConnection)

/-- Lookup in the pool map. -/
def lookupPool (m : PoolMap) (key : String) : Option SSHConnection :=
  match m with
  | [] => none
  | (k, v) :: rest => if k = key then some v else lookupPool rest key

/-- Deletion from the pool map (Go `delete(p.conns, key)`). -/
def erasePool (m : PoolMap) (key : String) : PoolMap :=
  match m with
  | [] => []
  | (k, v) :: rest => if k = key then erasePool rest key else (k, v) :: erasePool rest key

/-- Outcomes of the library calls made by SSHPool.getConnection: the
keepalive probe on an existing connection, plus the connect stages. -/
structure GetEnv extends ConnectEnv where
  keepaliveOk : Bool

/-- The create-and-insert tail of SSHPool.getConnection. -/
def mkNewConn (env : ConnectEnv) (pool : PoolMap) (key : String) :
    Except ConnectErr SSHConnection × PoolMap × List CloseAction :=
  match sshConnect env with
  | (.error e, tr) => (.error e, pool, tr)
  | (.ok conn, tr) => (.ok conn, (key, conn) :: pool, tr)

/-- SSHPool.getConnection from the pool source: look up by key; probe an
existing connection and return it if alive, evicting it otherwise; then dial
a fresh connection and insert it under the key. Returns the result, the new
pool map, and the close actions performed. -/
def getConnection (env : GetEnv) (pool : PoolMap) (repo : Repository) :
    Except ConnectErr SSHConnection × PoolMap × List CloseAction :=
  let key := connectionKey repo
  match lookupPool pool key with
  | some conn =>
    if env.keepaliveOk then (.ok conn, pool, [])
    else mkNewConn env.toConnectEnv (erasePool pool key) key
  | none => mkNewConn env.toConnectEnv pool key

/-- SSHPool.Close from the pool source: close every pooled connection (SFTP
sub-session first, then the transport session) and replace the map with an
empty one. Returns the emptied pool and the close actions in order. -/
def sshPoolClose (pool : PoolMap) : PoolMap × List CloseAction :=
  (([] : PoolMap),
    pool.flatMap (fun kc => [CloseAction.closeSftp kc.2.sftp, CloseAction.closeClient kc.2.client]))

/- ### RemoteFS.ReadFile (remote filesystem source file) -/

/-- Replace every backslash with a forward slash
(`strings.ReplaceAll(p, "\\", "/")`). -/
def slashify (s : String) : String :=
  String.mk (s.data.map (fun c => if c = '\\' then '/' else c))

/-- Errors of RemoteFS.ReadFile. -/
inductive ReadFileErr where
  | openFailed
  | statFailed
  | readFailed (msg : String)
deriving DecidableEq

/-- Outcomes of the SFTP library calls made by RemoteFS.ReadFile: whether
`Open` and `Stat` succeed, how many bytes the single `Read` call delivers,
and the error value it returns (`some "EOF"` is `io.EOF`). -/
structure ReadEnv where
  openOk : Bool
  statOk : Bool
  bytesRead : Nat
  readErr : Option String

/-- RemoteFS.ReadFile from the remote filesystem source: join and normalize
the path, open the file, stat it, allocate a buffer of exactly the stat size,
issue one Read, and reject any Read error other than "EOF". `content` is the
byte content of the remote file; the zero-initialized buffer keeps its
trailing zeros when the read is short. -/
def remoteReadFile (env : ReadEnv) (content : List Nat) (basePath path : String) :
    Except ReadFileErr (List Nat) :=
  let _fullPath := slashify (goJoin basePath path)
  if !env.openOk then .error .openFailed
  else if !env.statOk then .error .statFailed
  else
    let size := content.length
    let n := min env.bytesRead size
    let data := content.take n ++ List.replicate (size - n) 0
    match env.readErr with
    | some e => if e ≠ "EOF" then .error (.readFailed e) else .ok data
    | none => .ok data

/- ### handleReadFile (main.go) -/

/-- Result of a tool handler: a text result or an error result. -/
inductive ToolResult where
  | ok (text : String)
  | err (msg : String)
deriving DecidableEq

/-- Stat information consumed by handleReadFile. -/
structure StatInfo where
  isRegular : Bool

/-- handleReadFile from main.go, after repository lookup: validate the path,
stat it, reject non-regular files, apply the shouldSkip access filter to the
validated relative path, and read. `fsStat` and `fsRead` model the
FileSystem calls. -/
def handleReadFile (cwd : String) (fsBasePath : String)
    (fsStat : String → Option StatInfo) (fsRead : String → Option String)
    (repoName file : String) : ToolResult :=
  match ValidatePath cwd fsBasePath file with
  | .error e => .err e
  | .ok relPath =>
    match fsStat relPath with
    | none => .err ("File does not exist: " ++ file)
    | some info =>
      if !info.isRegular then .err ("Path is not a file: " ++ file)
      else if shouldSkip relPath then .err ("Access denied: " ++ file)
      else
        match fsRead relPath with
        | none => .err "read failed"
        | some content =>
          .ok ("File: " ++ repoName ++ "/" ++ file ++ "\n\n" ++ content)

/- ### Specification-side readings of path containment -/

/-- Segments of the absolute cleaned base directory. -/
def bsOf (cwd base : String) : List (List Char) :=
  segsNE (goAbs cwd base).data

/-- Segments of the lexical resolution of the request against the base. -/
def tsOf (cwd base p : String) : List (List Char) :=
  segsNE (goJoin (goAbs cwd base) p).data

/-- The request resolves within the base: the base segments lead the
resolved target segments. -/
def staysWithinB (cwd base p : String) : Bool :=
  segsLead (bsOf cwd base) (tsOf cwd base p)

/-- The lexically cleaned relative path from base to resolved target: the
target segments after the base, or "." when they coincide. -/
def specRel (cwd base p : String) : String :=
  let trest := (tsOf cwd base p).drop (bsOf cwd base).length
  if trest = [] then "." else String.mk (joinSlash trest)

/-- The cleaned relative path begins with the two characters "..". -/
def relStartsDotdot (cwd base p : String) : Bool :=
  leadsWith ['.', '.'] (specRel cwd base p).data

/- ### Lemmas about the path plumbing -/

/-- A cleaned rooted segment: non-empty, not ".", not "..", separator-free. -/
def CleanSeg (l : List Char) : Prop :=
  l ≠ [] ∧ l ≠ ['.'] ∧ l ≠ ['.', '.'] ∧ '/' ∉ l

theorem splitSlash_ne_nil (cs : List Char) : splitSlash cs ≠ [] := by
  cases cs with
  | nil => simp [splitSlash]
  | cons c cs =>
    by_cases h : c = '/'
    · simp [splitSlash, h]
    · simp only [splitSlash, if_neg h]
      cases splitSlash cs <;> simp

theorem splitSlash_cons_ne (c : Char) (cs : List Char) (h : ¬c = '/') :
    splitSlash (c :: cs) =
      match splitSlash cs with
      | [] => [[c]]
      | s :: rest => (c :: s) :: rest := by
  simp [splitSlash, h]

theorem splitSlash_append (xs ys : List Char) :
    splitSlash (xs ++ '/' :: ys) = splitSlash xs ++ splitSlash ys := by
  induction xs with
  | nil => simp [splitSlash]
  | cons c cs ih =>
    by_cases h : c = '/'
    · simp [splitSlash, h, ih]
    · have h2 := splitSlash_ne_nil cs
      cases hs : splitSlash cs with
      | nil => exact absurd hs h2
      | cons s rest =>
        rw [List.cons_append, splitSlash_cons_ne c (cs ++ '/' :: ys) h,
          splitSlash_cons_ne c cs h, ih, hs]
        simp

theorem splitSlash_no_slash (cs : List Char) :
    ∀ l ∈ splitSlash cs, '/' ∉ l := by
  induction cs with
  | nil => simp [splitSlash]
  | cons c cs ih =>
    by_cases h : c = '/'
    · simpa [splitSlash, h] using ih
    · simp only [splitSlash, if_neg h]
      cases hs : splitSlash cs with
      | nil => exact absurd hs (splitSlash_ne_nil cs)
      | cons s rest =>
        intro l hl
        rcases List.mem_cons.mp hl with rfl | hl
        · intro hmem
          rcases List.mem_cons.mp hmem with rfl | hmem
          · exact h rfl
          · exact ih s (hs ▸ List.mem_cons_self s rest) hmem
        · exact ih l (hs ▸ List.mem_cons_of_mem s hl)

theorem splitSlash_of_no_slash (cs : List Char) (h : '/' ∉ cs) :
    splitSlash cs = [cs] := by
  induction cs with
  | nil => simp [splitSlash]
  | cons c cs ih =>
    have hc : c ≠ '/' := fun hh => h (hh ▸ List.mem_cons_self c cs)
    have hcs : '/' ∉ cs := fun hh => h (List.mem_cons_of_mem c hh)
    simp only [splitSlash, if_neg hc, ih hcs]

theorem splitSlash_joinSlash (segs : List (List Char)) (hne : segs ≠ [])
    (h : ∀ l ∈ segs, l ≠ [] ∧ '/' ∉ l) :
    splitSlash (joinSlash segs) = segs := by
  induction segs with
  | nil => exact absurd rfl hne
  | cons s rest ih =>
    cases rest with
    | nil =>
      simp only [joinSlash]
      exact splitSlash_of_no_slash s (h s (List.mem_cons_self s [])).2
    | cons t rest2 =>
      have : joinSlash (s :: t :: rest2) = s ++ '/' :: joinSlash (t :: rest2) := rfl
      rw [this, splitSlash_append,
        splitSlash_of_no_slash s (h s (List.mem_cons_self s _)).2,
        ih (by simp) (fun l hl => h l (List.mem_cons_of_mem s hl))]
      simp

theorem mem_rawsegs {cs : List Char} {l : List Char} (h : l ∈ rawsegs cs) :
    l ≠ [] ∧ l ≠ ['.'] ∧ '/' ∉ l := by
  unfold rawsegs at h
  rw [List.mem_filter] at h
  obtain ⟨hmem, hdec⟩ := h
  rw [decide_eq_true_iff] at hdec
  exact ⟨hdec.1, hdec.2, splitSlash_no_slash cs l hmem⟩

theorem rawsegs_append (xs ys : List Char) :
    rawsegs (xs ++ '/' :: ys) = rawsegs xs ++ rawsegs ys := by
  unfold rawsegs
  rw [splitSlash_append, List.filter_append]

theorem cleanStep_push (rooted : Bool) (acc : List (List Char))
    {seg : List Char} (h : seg ≠ ['.', '.']) :
    cleanStep rooted acc seg = acc ++ [seg] := by
  simp [cleanStep, h]

theorem foldl_cleanStep_clean (rooted : Bool) :
    ∀ (segs : List (List Char)) (acc : List (List Char)),
      (∀ l ∈ segs, l ≠ ['.', '.']) →
      List.foldl (cleanStep rooted) acc segs = acc ++ segs := by
  intro segs
  induction segs with
  | nil => intro acc _; simp
  | cons s rest ih =>
    intro acc h
    rw [List.foldl_cons, cleanStep_push rooted acc (h s (List.mem_cons_self s rest)),
      ih (acc ++ [s]) (fun l hl => h l (List.mem_cons_of_mem s hl))]
    simp

theorem cleanList_rooted_mem :
    ∀ (segs : List (List Char)) (acc : List (List Char)),
      (∀ l ∈ acc, CleanSeg l) →
      (∀ l ∈ segs, l ≠ [] ∧ l ≠ ['.'] ∧ '/' ∉ l) →
      ∀ l ∈ List.foldl (cleanStep true) acc segs, CleanSeg l := by
  intro segs
  induction segs with
  | nil => intro acc hacc _ l hl; exact hacc l hl
  | cons s rest ih =>
    intro acc hacc h
    have hs := h s (List.mem_cons_self s rest)
    have hrest : ∀ l ∈ rest, l ≠ [] ∧ l ≠ ['.'] ∧ '/' ∉ l :=
      fun l hl => h l (List.mem_cons_of_mem s hl)
    rw [List.foldl_cons]
    by_cases hdd : s = ['.', '.']
    · subst hdd
      apply ih _ _ hrest
      intro l hl
      simp only [cleanStep, if_pos rfl] at hl
      by_cases hcond : acc ≠ [] ∧ acc.getLast? ≠ some ['.', '.']
      · rw [if_pos hcond] at hl
        exact hacc l ((List.dropLast_sublist acc).subset hl)
      · rw [if_neg hcond] at hl
        exact hacc l hl
    · rw [cleanStep_push true acc hdd]
      apply ih _ _ hrest
      intro l hl
      rcases List.mem_append.mp hl with hl | hl
      · exact hacc l hl
      · rw [List.mem_singleton] at hl
        subst hl
        exact ⟨hs.1, hs.2.1, hdd, hs.2.2⟩

/-- A canonical absolute path: the rendering of a list of cleaned segments. -/
def CanonAbs (x : String) : Prop :=
  ∃ segs, (∀ l ∈ segs, CleanSeg l) ∧ x = toPathString true segs

theorem toPathString_true_data (segs : List (List Char)) :
    (toPathString true segs).data = '/' :: joinSlash segs := by
  by_cases h : segs = []
  · subst h; rfl
  · simp only [toPathString, if_neg h]
    rfl

theorem goIsAbs_toPathString_true (segs : List (List Char)) :
    goIsAbs (toPathString true segs) = true := by
  unfold goIsAbs
  rw [toPathString_true_data]
  simp [leadsWith]

theorem toPathString_true_data_ne_nil (segs : List (List Char)) :
    (toPathString true segs).data ≠ [] := by
  rw [toPathString_true_data]; simp

theorem toPathString_true_ne_dot (segs : List (List Char)) :
    toPathString true segs ≠ "." := by
  intro h
  have : (toPathString true segs).data = ['.'] := by rw [h]
  rw [toPathString_true_data] at this
  simp at this

theorem segsNE_toPathString (segs : List (List Char))
    (h : ∀ l ∈ segs, l ≠ [] ∧ '/' ∉ l) :
    segsNE (toPathString true segs).data = segs := by
  rw [toPathString_true_data]
  unfold segsNE
  by_cases hn : segs = []
  · subst hn; simp [splitSlash, joinSlash]
  · have : splitSlash ('/' :: joinSlash segs) = [] :: splitSlash (joinSlash segs) := by
      simp [splitSlash]
    rw [this, splitSlash_joinSlash segs hn h]
    rw [List.filter_cons]
    simp only [decide_eq_true_iff]
    rw [if_neg (by simp)]
    apply List.filter_eq_self.mpr
    intro a ha
    simpa using (h a ha).1

theorem rawsegs_toPathString (segs : List (List Char))
    (h : ∀ l ∈ segs, l ≠ [] ∧ l ≠ ['.'] ∧ '/' ∉ l) :
    rawsegs (toPathString true segs).data = segs := by
  rw [toPathString_true_data]
  unfold rawsegs
  by_cases hn : segs = []
  · subst hn; simp [splitSlash, joinSlash]
  · have : splitSlash ('/' :: joinSlash segs) = [] :: splitSlash (joinSlash segs) := by
      simp [splitSlash]
    rw [this, splitSlash_joinSlash segs hn (fun l hl => ⟨(h l hl).1, (h l hl).2.2⟩)]
    rw [List.filter_cons]
    simp only [decide_eq_true_iff]
    rw [if_neg (by simp)]
    apply List.filter_eq_self.mpr
    intro a ha
    simp only [decide_eq_true_iff]
    exact ⟨(h a ha).1, (h a ha).2.1⟩

theorem goClean_CanonAbs {s : String} (h : goIsAbs s = true) :
    CanonAbs (goClean s) := by
  refine ⟨cleanList true (rawsegs s.data), ?_, ?_⟩
  · intro l hl
    exact cleanList_rooted_mem (rawsegs s.data) [] (by simp)
      (fun l hl => mem_rawsegs hl) l hl
  · unfold goClean
    rw [h]

theorem CanonAbs_goIsAbs {x : String} (h : CanonAbs x) : goIsAbs x = true := by
  obtain ⟨segs, _, rfl⟩ := h
  exact goIsAbs_toPathString_true segs

theorem goIsAbs_data_ne_nil {a : String} (h : goIsAbs a = true) : a.data ≠ [] := by
  unfold goIsAbs at h
  cases hd : a.data with
  | nil => rw [hd] at h; simp [leadsWith] at h
  | cons c rest => simp

theorem goJoin_rooted_CanonAbs {a : String} (ha : goIsAbs a = true) (b : String) :
    CanonAbs (goJoin a b) := by
  have hne : a.data ≠ [] := goIsAbs_data_ne_nil ha
  unfold goJoin
  rw [if_neg hne]
  apply goClean_CanonAbs
  unfold goIsAbs at ha ⊢
  cases hd : a.data with
  | nil => exact absurd hd hne
  | cons c rest =>
    rw [hd] at ha
    have hca : '/' = c ∧ True := by simpa [leadsWith] using ha
    have hc := hca.1
    subst hc
    simp [hd, leadsWith]

theorem goJoin_CanonAbs {a : String} (h : CanonAbs a) (b : String) :
    CanonAbs (goJoin a b) :=
  goJoin_rooted_CanonAbs (CanonAbs_goIsAbs h) b

theorem goAbs_CanonAbs {cwd : String} (h : goIsAbs cwd = true) (s : String) :
    CanonAbs (goAbs cwd s) := by
  by_cases hs : goIsAbs s = true
  · simp only [goAbs, hs, if_true]
    exact goClean_CanonAbs hs
  · simp only [goAbs, hs]
    simp only [Bool.false_eq_true, if_false]
    exact goJoin_rooted_CanonAbs h s

theorem goClean_of_CanonAbs {x : String} (h : CanonAbs x) : goClean x = x := by
  obtain ⟨segs, hsegs, rfl⟩ := h
  unfold goClean
  rw [goIsAbs_toPathString_true]
  rw [rawsegs_toPathString segs (fun l hl => ⟨(hsegs l hl).1, (hsegs l hl).2.1, (hsegs l hl).2.2.2⟩)]
  unfold cleanList
  rw [foldl_cleanStep_clean true segs [] (fun l hl => (hsegs l hl).2.2.1)]
  simp

theorem goAbs_of_CanonAbs (cwd : String) {x : String} (h : CanonAbs x) :
    goAbs cwd x = x := by
  unfold goAbs
  rw [CanonAbs_goIsAbs h]
  simp only [if_pos rfl]
  exact goClean_of_CanonAbs h

theorem toPathString_true_inj {s1 s2 : List (List Char)}
    (h1 : ∀ l ∈ s1, l ≠ [] ∧ '/' ∉ l) (h2 : ∀ l ∈ s2, l ≠ [] ∧ '/' ∉ l)
    (heq : toPathString true s1 = toPathString true s2) : s1 = s2 := by
  rw [← segsNE_toPathString s1 h1, ← segsNE_toPathString s2 h2, heq]

theorem leadsWith_self_append (pre xs : List Char) :
    leadsWith pre (pre ++ xs) = true := by
  induction pre with
  | nil => simp [leadsWith]
  | cons c cs ih => simp [leadsWith, ih]

theorem segsLead_refl (as : List (List Char)) : segsLead as as = true := by
  induction as with
  | nil => simp [segsLead]
  | cons a rest ih => simp [segsLead, ih]

theorem segsLead_decomp :
    ∀ as bs : List (List Char), segsLead as bs = true →
      bs = as ++ bs.drop as.length := by
  intro as
  induction as with
  | nil => intro bs _; simp
  | cons a as ih =>
    intro bs h
    cases bs with
    | nil => simp [segsLead] at h
    | cons b bs =>
      simp only [segsLead, Bool.and_eq_true, decide_eq_true_iff] at h
      obtain ⟨rfl, h⟩ := h
      simpa using ih bs h

theorem dropCommon_of_lead :
    ∀ as bs : List (List Char), segsLead as bs = true →
      dropCommon as bs = ([], bs.drop as.length) := by
  intro as
  induction as with
  | nil =>
    intro bs _
    cases bs <;> simp [dropCommon]
  | cons a as ih =>
    intro bs h
    cases bs with
    | nil => simp [segsLead] at h
    | cons b bs =>
      simp only [segsLead, Bool.and_eq_true, decide_eq_true_iff] at h
      obtain ⟨rfl, h⟩ := h
      simpa [dropCommon] using ih bs h

theorem dropCommon_fst_nil :
    ∀ as bs : List (List Char), (dropCommon as bs).1 = [] →
      segsLead as bs = true := by
  intro as
  induction as with
  | nil => intro bs _; simp [segsLead]
  | cons a as ih =>
    intro bs h
    cases bs with
    | nil => simp [dropCommon] at h
    | cons b bs =>
      by_cases hab : a = b
      · subst hab
        simp only [dropCommon, if_pos rfl] at h
        simp [segsLead, ih bs h]
      · simp [dropCommon, hab] at h

theorem mem_dropCommon_fst :
    ∀ as bs : List (List Char), ∀ l ∈ (dropCommon as bs).1, l ∈ as := by
  intro as
  induction as with
  | nil =>
    intro bs l hl
    cases bs <;> simp [dropCommon] at hl
  | cons a as ih =>
    intro bs l hl
    cases bs with
    | nil => simpa [dropCommon] using hl
    | cons b bs =>
      by_cases hab : a = b
      · subst hab
        simp only [dropCommon, if_pos rfl] at hl
        exact List.mem_cons_of_mem a (ih bs l hl)
      · simpa [dropCommon, hab] using hl

theorem head?_mem {α : Type} {l : List α} {a : α} (h : l.head? = some a) : a ∈ l := by
  cases l with
  | nil => simp at h
  | cons x xs =>
    simp only [List.head?_cons, Option.some.injEq] at h
    subst h
    exact List.mem_cons_self x xs

theorem joinSlash_cons (a : List Char) (rest : List (List Char)) :
    joinSlash (a :: rest) = a ++ (if rest = [] then [] else '/' :: joinSlash rest) := by
  cases rest with
  | nil => simp [joinSlash]
  | cons b r => simp [joinSlash]

theorem leadsWith_dotdot_replicate (n : Nat) (hn : n ≠ 0) (t : List (List Char)) :
    leadsWith ['.', '.'] (joinSlash (List.replicate n ['.', '.'] ++ t)) = true := by
  cases n with
  | zero => exact absurd rfl hn
  | succ m =>
    rw [List.replicate_succ, List.cons_append, joinSlash_cons]
    by_cases h : List.replicate m ['.', '.'] ++ t = []
    · rw [if_pos h]
      simp [leadsWith]
    · rw [if_neg h]
      exact leadsWith_self_append ['.', '.'] _

/- ### The combined shape of base and resolved target -/

theorem pathFacts (cwd base p : String) (h : goIsAbs cwd = true) :
    ∃ bs ts : List (List Char),
      (∀ l ∈ bs, CleanSeg l) ∧ (∀ l ∈ ts, CleanSeg l) ∧
      goAbs cwd base = toPathString true bs ∧
      goJoin (goAbs cwd base) p = toPathString true ts ∧
      bsOf cwd base = bs ∧ tsOf cwd base p = ts ∧
      goAbs cwd (goJoin (goAbs cwd base) p) = goJoin (goAbs cwd base) p := by
  obtain ⟨bs, hbs, hB⟩ := goAbs_CanonAbs h base
  obtain ⟨ts, hts, hT⟩ := goJoin_CanonAbs (goAbs_CanonAbs h base) p
  refine ⟨bs, ts, hbs, hts, hB, hT, ?_, ?_, ?_⟩
  · show segsNE (goAbs cwd base).data = bs
    rw [hB]
    exact segsNE_toPathString bs (fun l hl => ⟨(hbs l hl).1, (hbs l hl).2.2.2⟩)
  · show segsNE (goJoin (goAbs cwd base) p).data = ts
    rw [hT]
    exact segsNE_toPathString ts (fun l hl => ⟨(hts l hl).1, (hts l hl).2.2.2⟩)
  · exact goAbs_of_CanonAbs cwd ⟨ts, hts, hT⟩

theorem mk_data (l : List Char) : (String.mk l).data = l := rfl

theorem ValidatePath_eq_spec (cwd base p : String) (h : goIsAbs cwd = true) :
    ValidatePath cwd base p =
      if staysWithinB cwd base p && !relStartsDotdot cwd base p then
        .ok (specRel cwd base p)
      else .error ("path traversal detected: " ++ p) := by
  obtain ⟨bs, ts, hbs, hts, hB, hT, hbsOf, htsOf, habsT⟩ := pathFacts cwd base p h
  have hcleanB : goClean (goAbs cwd base) = goAbs cwd base :=
    goClean_of_CanonAbs ⟨bs, hbs, hB⟩
  have hcleanT : goClean (goJoin (goAbs cwd base) p) = goJoin (goAbs cwd base) p :=
    goClean_of_CanonAbs ⟨ts, hts, hT⟩
  have hBabs : goIsAbs (goAbs cwd base) = true := CanonAbs_goIsAbs ⟨bs, hbs, hB⟩
  have hTabs : goIsAbs (goJoin (goAbs cwd base) p) = true := CanonAbs_goIsAbs ⟨ts, hts, hT⟩
  have hsegB : segsNE (goAbs cwd base).data = bs := hbsOf
  have hsegT : segsNE (goJoin (goAbs cwd base) p).data = ts := htsOf
  simp only [ValidatePath, habsT, goRel, hcleanB, hcleanT]
  by_cases hBT : goAbs cwd base = goJoin (goAbs cwd base) p
  · rw [if_pos hBT]
    have hbts : bs = ts :=
      toPathString_true_inj (fun l hl => ⟨(hbs l hl).1, (hbs l hl).2.2.2⟩)
        (fun l hl => ⟨(hts l hl).1, (hts l hl).2.2.2⟩) (by rw [← hB, ← hT]; exact hBT)
    have hstays : staysWithinB cwd base p = true := by
      unfold staysWithinB
      rw [hbsOf, htsOf, ← hbts]
      exact segsLead_refl bs
    have hspec : specRel cwd base p = "." := by
      unfold specRel
      rw [hbsOf, htsOf, ← hbts, List.drop_length]
      simp
    have hdots : relStartsDotdot cwd base p = false := by
      unfold relStartsDotdot
      rw [hspec]
      decide
    rw [hstays, hdots, hspec]
    simp [leadsWith]
  · rw [if_neg hBT]
    have hBdot : ¬(goAbs cwd base = ".") := fun hh =>
      toPathString_true_ne_dot bs (hB ▸ hh)
    rw [if_neg hBdot]
    have hcond : ¬(goIsAbs (goAbs cwd base) ≠ goIsAbs (goJoin (goAbs cwd base) p)) := by
      rw [hBabs, hTabs]
      exact fun hh => hh rfl
    rw [if_neg hcond, hsegB, hsegT]
    by_cases hlead : segsLead bs ts = true
    · rw [dropCommon_of_lead bs ts hlead]
      have htrest : ts = bs ++ ts.drop bs.length := segsLead_decomp bs ts hlead
      have htne : ts.drop bs.length ≠ [] := by
        intro hempty
        apply hBT
        have hbts : ts = bs := by rw [htrest, hempty]; simp
        rw [hT, hB, hbts]
      have hstays : staysWithinB cwd base p = true := by
        unfold staysWithinB
        rw [hbsOf, htsOf]
        exact hlead
      have hspec : specRel cwd base p = String.mk (joinSlash (ts.drop bs.length)) := by
        unfold specRel
        rw [hbsOf, htsOf, if_neg htne]
      have hrd : relStartsDotdot cwd base p =
          leadsWith ['.', '.'] (joinSlash (ts.drop bs.length)) := by
        unfold relStartsDotdot
        rw [hspec, mk_data]
      rw [hstays, hrd, hspec]
      by_cases hdd : leadsWith ['.', '.'] (joinSlash (ts.drop bs.length)) = true
      · simp [hdd, mk_data]
      · rw [Bool.not_eq_true] at hdd
        simp [hdd, mk_data]
    · have hfst : (dropCommon bs ts).1 ≠ [] := fun hh => hlead (dropCommon_fst_nil bs ts hh)
      have hhead : ¬((dropCommon bs ts).1.head? = some ['.', '.']) := by
        intro hh
        have hmem := mem_dropCommon_fst bs ts _ (head?_mem hh)
        exact (hbs _ hmem).2.2.1 rfl
      rw [if_neg hhead, if_neg hfst]
      have hlen : (dropCommon bs ts).1.length ≠ 0 := by
        intro hh
        exact hfst (List.eq_nil_of_length_eq_zero hh)
      have hdd := leadsWith_dotdot_replicate _ hlen (dropCommon bs ts).2
      have hstays : staysWithinB cwd base p = false := by
        unfold staysWithinB
        rw [hbsOf, htsOf]
        cases hsl : segsLead bs ts with
        | false => rfl
        | true => exact absurd hsl hlead
      rw [hstays]
      simp [hdd, mk_data]

theorem validatePath_eq_spec (cwd base p : String) (h : goIsAbs cwd = true) :
    validatePath cwd base p =
      if staysWithinB cwd base p && !relStartsDotdot cwd base p then
        .ok (goJoin (goAbs cwd base) p)
      else .error ("path traversal detected: " ++ p) := by
  obtain ⟨bs, ts, hbs, hts, hB, hT, hbsOf, htsOf, habsT⟩ := pathFacts cwd base p h
  have hcleanB : goClean (goAbs cwd base) = goAbs cwd base :=
    goClean_of_CanonAbs ⟨bs, hbs, hB⟩
  have hcleanT : goClean (goJoin (goAbs cwd base) p) = goJoin (goAbs cwd base) p :=
    goClean_of_CanonAbs ⟨ts, hts, hT⟩
  have hBabs : goIsAbs (goAbs cwd base) = true := CanonAbs_goIsAbs ⟨bs, hbs, hB⟩
  have hTabs : goIsAbs (goJoin (goAbs cwd base) p) = true := CanonAbs_goIsAbs ⟨ts, hts, hT⟩
  have hsegB : segsNE (goAbs cwd base).data = bs := hbsOf
  have hsegT : segsNE (goJoin (goAbs cwd base) p).data = ts := htsOf
  simp only [validatePath, habsT, goRel, hcleanB, hcleanT]
  by_cases hBT : goAbs cwd base = goJoin (goAbs cwd base) p
  · rw [if_pos hBT]
    have hbts : bs = ts :=
      toPathString_true_inj (fun l hl => ⟨(hbs l hl).1, (hbs l hl).2.2.2⟩)
        (fun l hl => ⟨(hts l hl).1, (hts l hl).2.2.2⟩) (by rw [← hB, ← hT]; exact hBT)
    have hstays : staysWithinB cwd base p = true := by
      unfold staysWithinB
      rw [hbsOf, htsOf, ← hbts]
      exact segsLead_refl bs
    have hspec : specRel cwd base p = "." := by
      unfold specRel
      rw [hbsOf, htsOf, ← hbts, List.drop_length]
      simp
    have hdots : relStartsDotdot cwd base p = false := by
      unfold relStartsDotdot
      rw [hspec]
      decide
    rw [hstays, hdots]
    simp [leadsWith]
  · rw [if_neg hBT]
    have hBdot : ¬(goAbs cwd base = ".") := fun hh =>
      toPathString_true_ne_dot bs (hB ▸ hh)
    rw [if_neg hBdot]
    have hcond : ¬(goIsAbs (goAbs cwd base) ≠ goIsAbs (goJoin (goAbs cwd base) p)) := by
      rw [hBabs, hTabs]
      exact fun hh => hh rfl
    rw [if_neg hcond, hsegB, hsegT]
    by_cases hlead : segsLead bs ts = true
    · rw [dropCommon_of_lead bs ts hlead]
      have htrest : ts = bs ++ ts.drop bs.length := segsLead_decomp bs ts hlead
      have htne : ts.drop bs.length ≠ [] := by
        intro hempty
        apply hBT
        have hbts : ts = bs := by rw [htrest, hempty]; simp
        rw [hT, hB, hbts]
      have hstays : staysWithinB cwd base p = true := by
        unfold staysWithinB
        rw [hbsOf, htsOf]
        exact hlead
      have hspec : specRel cwd base p = String.mk (joinSlash (ts.drop bs.length)) := by
        unfold specRel
        rw [hbsOf, htsOf, if_neg htne]
      have hrd : relStartsDotdot cwd base p =
          leadsWith ['.', '.'] (joinSlash (ts.drop bs.length)) := by
        unfold relStartsDotdot
        rw [hspec, mk_data]
      rw [hstays, hrd]
      by_cases hdd : leadsWith ['.', '.'] (joinSlash (ts.drop bs.length)) = true
      · simp [hdd, mk_data]
      · rw [Bool.not_eq_true] at hdd
        simp [hdd, mk_data]
    · have hfst : (dropCommon bs ts).1 ≠ [] := fun hh => hlead (dropCommon_fst_nil bs ts hh)
      have hhead : ¬((dropCommon bs ts).1.head? = some ['.', '.']) := by
        intro hh
        have hmem := mem_dropCommon_fst bs ts _ (head?_mem hh)
        exact (hbs _ hmem).2.2.1 rfl
      rw [if_neg hhead, if_neg hfst]
      have hlen : (dropCommon bs ts).1.length ≠ 0 := by
        intro hh
        exact hfst (List.eq_nil_of_length_eq_zero hh)
      have hdd := leadsWith_dotdot_replicate _ hlen (dropCommon bs ts).2
      have hstays : staysWithinB cwd base p = false := by
        unfold staysWithinB
        rw [hbsOf, htsOf]
        cases hsl : segsLead bs ts with
        | false => rfl
        | true => exact absurd hsl hlead
      rw [hstays]
      simp [hdd, mk_data]

theorem rawsegs_joinSlash (segs : List (List Char)) (hne : segs ≠ [])
    (h : ∀ l ∈ segs, l ≠ [] ∧ l ≠ ['.'] ∧ '/' ∉ l) :
    rawsegs (joinSlash segs) = segs := by
  unfold rawsegs
  rw [splitSlash_joinSlash segs hne (fun l hl => ⟨(h l hl).1, (h l hl).2.2⟩)]
  apply List.filter_eq_self.mpr
  intro a ha
  simp only [decide_eq_true_iff]
  exact ⟨(h a ha).1, (h a ha).2.1⟩

theorem goJoin_toPS (bs : List (List Char)) (r : String) :
    goJoin (toPathString true bs) r =
      toPathString true
        (List.foldl (cleanStep true)
          (cleanList true (rawsegs (toPathString true bs).data)) (rawsegs r.data)) := by
  unfold goJoin
  rw [if_neg (toPathString_true_data_ne_nil bs)]
  unfold goClean
  have habs : goIsAbs (String.mk ((toPathString true bs).data ++ '/' :: r.data)) = true := by
    unfold goIsAbs
    rw [mk_data, toPathString_true_data, List.cons_append]
    simp [leadsWith]
  rw [habs]
  rw [mk_data, rawsegs_append]
  unfold cleanList
  rw [List.foldl_append]

theorem goJoin_CanonAbs_segs {B : String} {bs : List (List Char)}
    (hbs : ∀ l ∈ bs, CleanSeg l) (hB : B = toPathString true bs) (r : String) :
    goJoin B r = toPathString true (List.foldl (cleanStep true) bs (rawsegs r.data)) := by
  subst hB
  rw [goJoin_toPS]
  rw [rawsegs_toPathString bs (fun l hl => ⟨(hbs l hl).1, (hbs l hl).2.1, (hbs l hl).2.2.2⟩)]
  unfold cleanList
  rw [foldl_cleanStep_clean true bs [] (fun l hl => (hbs l hl).2.2.1)]
  simp

theorem goJoin_specRel (cwd base p : String) (h : goIsAbs cwd = true)
    (hstay : staysWithinB cwd base p = true) :
    goJoin (goAbs cwd base) (specRel cwd base p) = goJoin (goAbs cwd base) p := by
  obtain ⟨bs, ts, hbs, hts, hB, hT, hbsOf, htsOf, _⟩ := pathFacts cwd base p h
  unfold staysWithinB at hstay
  rw [hbsOf, htsOf] at hstay
  have htrest := segsLead_decomp bs ts hstay
  unfold specRel
  rw [hbsOf, htsOf]
  by_cases htne : ts.drop bs.length = []
  · rw [if_pos htne]
    have hbts : ts = bs := by rw [htrest, htne]; simp
    rw [hT, hbts, ← hB]
    rw [goJoin_CanonAbs_segs hbs hB "."]
    have : rawsegs (String.data ".") = [] := by decide
    rw [this]
    simp [hB]
  · rw [if_neg htne]
    have hsub : ∀ l ∈ ts.drop bs.length, CleanSeg l := by
      intro l hl
      exact hts l (List.drop_subset bs.length ts hl)
    rw [goJoin_CanonAbs_segs hbs hB (String.mk (joinSlash (ts.drop bs.length)))]
    rw [mk_data, rawsegs_joinSlash (ts.drop bs.length) htne
      (fun l hl => ⟨(hsub l hl).1, (hsub l hl).2.1, (hsub l hl).2.2.2⟩)]
    rw [foldl_cleanStep_clean true _ bs (fun l hl => (hsub l hl).2.2.1)]
    rw [← htrest, hT]

/- ### Claim theorems -/

/-- Claim C1 (amended): with an absolute working directory, ValidatePath
fails with the path-traversal error for every request whose lexical
resolution leaves the base, and returns the lexically cleaned relative path
for every request that stays within the base — except that an in-base
request whose cleaned relative path begins with the two characters ".."
(for example a first segment named "..foo") is also rejected, because the
code tests a string prefix rather than a parent-directory segment. -/
theorem ValidatePath_containment (cwd basePath p : String) (h : goIsAbs cwd = true) :
    (staysWithinB cwd basePath p = false →
      ValidatePath cwd basePath p = .error ("path traversal detected: " ++ p)) ∧
    (staysWithinB cwd basePath p = true → relStartsDotdot cwd basePath p = false →
      ValidatePath cwd basePath p = .ok (specRel cwd basePath p)) ∧
    (staysWithinB cwd basePath p = true → relStartsDotdot cwd basePath p = true →
      ValidatePath cwd basePath p = .error ("path traversal detected: " ++ p)) := by
  have hc := ValidatePath_eq_spec cwd basePath p h
  refine ⟨fun hs => ?_, fun hs hd => ?_, fun hs hd => ?_⟩
  · rw [hc]; simp [hs]
  · rw [hc]; simp [hs, hd]
  · rw [hc]; simp [hs, hd]

/-- Claim C1, witness for the amended theorem at a concrete input. -/
theorem ValidatePath_containment_witness :
    ValidatePath "/" "/repo" "src/main.go" = .ok "src/main.go" := by
  have hh := (ValidatePath_containment "/" "/repo" "src/main.go" (by decide)).2.1
    (by decide) (by decide)
  rw [hh]
  decide

/-- Claim C1, counterexample to the claim as stated: the request "..foo"
resolves to the in-base entry "/repo/..foo", yet ValidatePath rejects it,
so a request that stays within the base can still fail. -/
theorem ValidatePath_rejects_inside_dotdot_name :
    staysWithinB "/" "/repo" "..foo" = true ∧
    ValidatePath "/" "/repo" "..foo" = .error "path traversal detected: ..foo" := by
  decide

/-- Claim C10: the legacy validatePath of main.go and ValidatePath of
repository.go accept and reject exactly the same inputs, and on success the
legacy absolute result is the absolute base path joined with the relative
result of the other. -/
theorem validatePath_matches_ValidatePath (cwd basePath req : String)
    (h : goIsAbs cwd = true) :
    ((∃ e, validatePath cwd basePath req = .error e) ↔
      (∃ e, ValidatePath cwd basePath req = .error e)) ∧
    (∀ r, ValidatePath cwd basePath req = .ok r →
      validatePath cwd basePath req = .ok (goJoin (goAbs cwd basePath) r)) := by
  have h1 := ValidatePath_eq_spec cwd basePath req h
  have h2 := validatePath_eq_spec cwd basePath req h
  by_cases hcond : (staysWithinB cwd basePath req && !relStartsDotdot cwd basePath req) = true
  · rw [if_pos hcond] at h1 h2
    constructor
    · constructor
      · rintro ⟨e, he⟩
        rw [h2] at he
        exact absurd he (by simp)
      · rintro ⟨e, he⟩
        rw [h1] at he
        exact absurd he (by simp)
    · intro r hr
      rw [h1] at hr
      have hspec : specRel cwd basePath req = r := Except.ok.inj hr
      obtain ⟨hstay, -⟩ : staysWithinB cwd basePath req = true ∧
          (!relStartsDotdot cwd basePath req) = true := by simpa using hcond
      rw [h2, ← hspec, goJoin_specRel cwd basePath req h hstay]
  · rw [if_neg hcond] at h1 h2
    constructor
    · exact ⟨fun _ => ⟨_, h1⟩, fun _ => ⟨_, h2⟩⟩
    · intro r hr
      rw [h1] at hr
      exact absurd hr (by simp)

/-- Claim C10, witness at a concrete input. -/
theorem validatePath_matches_witness :
    validatePath "/" "/repo" "src/main.go" = .ok "/repo/src/main.go" := by
  have hh := (validatePath_matches_ValidatePath "/" "/repo" "src/main.go" (by decide)).2
    "src/main.go" (by decide)
  rw [hh]
  decide

/-- Claim C3: shouldSkip is true exactly for names whose base component
starts with "." or equals "node_modules", as on the spec examples. -/
theorem shouldSkip_characterization :
    (∀ name : String, shouldSkip name = true ↔
      (leadsWith ['.'] (goBase name).data = true ∨ goBase name = "node_modules")) ∧
    shouldSkip ".git" = true ∧ shouldSkip "node_modules" = true ∧
    shouldSkip "my.node_modules" = false := by
  refine ⟨fun name => ?_, by decide, by decide, by decide⟩
  unfold shouldSkip
  by_cases h1 : leadsWith ['.'] (goBase name).data = true
  · simp [h1]
  · by_cases h2 : goBase name = "node_modules" <;> simp [h1, h2]

/-- Claim C9: the access filter of read_file and the resource reader checks
only the final component of the validated relative path: any validated
relative path whose base component does not start with "." and is not
"node_modules" passes the shouldSkip check and is read, even when an
ancestor directory component is hidden. -/
theorem handleReadFile_filters_final_component_only
    (cwd basePath repoName file rel content : String)
    (fsStat : String → Option StatInfo) (fsRead : String → Option String)
    (hv : ValidatePath cwd basePath file = .ok rel)
    (hdot : leadsWith ['.'] (goBase rel).data = false)
    (hnm : goBase rel ≠ "node_modules")
    (hstat : fsStat rel = some ⟨true⟩)
    (hread : fsRead rel = some content) :
    handleReadFile cwd basePath fsStat fsRead repoName file =
      .ok ("File: " ++ repoName ++ "/" ++ file ++ "\n\n" ++ content) := by
  have hskip : shouldSkip rel = false := by
    unfold shouldSkip
    simp [hdot, hnm]
  unfold handleReadFile
  simp only [hv, hstat, hskip, hread]
  simp

/-- Claim C9, witness: a regular file inside the hidden directory ".git" is
readable through handleReadFile although its parent is hidden. -/
theorem handleReadFile_filters_witness :
    handleReadFile "/" "/repo"
      (fun r => if r = ".git/config" then some ⟨true⟩ else none)
      (fun r => if r = ".git/config" then some "secret" else none)
      "docs" ".git/config" = .ok "File: docs/.git/config\n\nsecret" := by
  have hh := handleReadFile_filters_final_component_only "/" "/repo" "docs"
    ".git/config" ".git/config" "secret"
    (fun r => if r = ".git/config" then some ⟨true⟩ else none)
    (fun r => if r = ".git/config" then some "secret" else none)
    (by decide) (by decide) (by decide) (by simp) (by simp)
  rw [hh]
  decide

/-- Claim C2: a reload that fails for any reason returns the previous
registry map unchanged, so every name resolvable before the failed reload
resolves to the same descriptor afterwards and nothing from the failed
document becomes visible. -/
theorem reloadConfig_keeps_old_on_error (homeDir : Option String)
    (input : ReloadInput) (repos : RepoMap) (e : ReloadErr)
    (h : (reloadConfig homeDir input repos).2 = some e) :
    (reloadConfig homeDir input repos).1 = repos ∧
    ∀ name, lookupRepo (reloadConfig homeDir input repos).1 name =
      lookupRepo repos name := by
  have h1 : (reloadConfig homeDir input repos).1 = repos := by
    cases input with
    | readError => rfl
    | parseError => rfl
    | parsed entries =>
      cases hp : parseRepos homeDir entries with
      | error e2 => simp [reloadConfig, hp]
      | ok m => simp [reloadConfig, hp] at h
  exact ⟨h1, fun name => by rw [h1]⟩

/-- Claim C2, witness: a reload whose document holds an ssh entry without a
host fails and leaves the previously published map in place. -/
theorem reloadConfig_keeps_old_witness :
    (reloadConfig none (.parsed [("bad", .obj ⟨"ssh", "", "", 0, "", ""⟩)])
      [("good", ⟨"local", "/srv", "", 0, "", ""⟩)]).1 =
      [("good", ⟨"local", "/srv", "", 0, "", ""⟩)] :=
  (reloadConfig_keeps_old_on_error none
    (.parsed [("bad", .obj ⟨"ssh", "", "", 0, "", ""⟩)])
    [("good", ⟨"local", "/srv", "", 0, "", ""⟩)]
    (.invalidRepo (.missingHost "bad")) (by decide)).1

/-- Claim C7: ParseRepository accepts a bare string as a local repository
with that path; for objects it applies the defaults (type local, ssh port
22, ssh key file tilde-expanded against the home directory) and rejects any
ssh repository missing a non-empty host, user or path with an error naming
the offending repository. -/
theorem ParseRepository_spec :
    (∀ (home : Option String) (name s : String),
      ParseRepository home name (.str s) = .ok ⟨"local", s, "", 0, "", ""⟩) ∧
    (∀ (home : Option String) (name : String) (o : RepoObj) (r : Repository),
      ParseRepository home name (.obj o) = .ok r →
      (o.rtype = "" → r.rtype = "local") ∧
      (r.rtype = "ssh" → o.port = 0 → r.port = 22) ∧
      (r.rtype = "ssh" → o.keyFile = "" →
        r.keyFile = (match home with
          | some hd => goJoin hd "/.ssh/id_rsa"
          | none => "~/.ssh/id_rsa"))) ∧
    (∀ (home : Option String) (name : String) (o : RepoObj),
      (if o.rtype = "" then "local" else o.rtype) = "ssh" →
      (o.host = "" ∨ o.user = "" ∨ o.path = "") →
      ∃ e, ParseRepository home name (.obj o) = .error e ∧ e.repoName = name) := by
  refine ⟨fun home name s => rfl, ?_, ?_⟩
  · intro home name o r hok
    simp only [ParseRepository] at hok
    by_cases hc1 : (if o.rtype = "" then "local" else o.rtype) = "ssh" ∧ o.host = ""
    · rw [if_pos hc1] at hok
      exact absurd hok (by simp)
    · rw [if_neg hc1] at hok
      by_cases hc2 : (if o.rtype = "" then "local" else o.rtype) = "ssh" ∧ o.user = ""
      · rw [if_pos hc2] at hok
        exact absurd hok (by simp)
      · rw [if_neg hc2] at hok
        by_cases hc3 : (if o.rtype = "" then "local" else o.rtype) = "ssh" ∧ o.path = ""
        · rw [if_pos hc3] at hok
          exact absurd hok (by simp)
        · rw [if_neg hc3] at hok
          have hr : r = _ := (Except.ok.inj hok).symm
          refine ⟨?_, ?_, ?_⟩
          · intro ht
            rw [hr]
            show (if o.rtype = "" then "local" else o.rtype) = "local"
            rw [if_pos ht]
          · intro hssh hport
            rw [hr] at hssh
            have hssh2 : (if o.rtype = "" then "local" else o.rtype) = "ssh" := hssh
            rw [hr]
            show (if (if o.rtype = "" then "local" else o.rtype) = "ssh" ∧ o.port = 0
                then 22 else o.port) = 22
            rw [if_pos (And.intro hssh2 hport)]
          · intro hssh hkf
            rw [hr] at hssh
            have hssh2 : (if o.rtype = "" then "local" else o.rtype) = "ssh" := hssh
            rw [hr]
            cases home with
            | none =>
              simp only [hssh2, hkf]
              simp [leadsWith]
            | some hd =>
              simp only [hssh2, hkf]
              simp [leadsWith]
  · intro home name o ht hmiss
    by_cases h1 : o.host = ""
    · refine ⟨.missingHost name, ?_, rfl⟩
      simp only [ParseRepository]
      rw [if_pos ⟨ht, h1⟩]
    · rcases hmiss with hm | hm | hm
      · exact absurd hm h1
      · refine ⟨.missingUser name, ?_, rfl⟩
        simp only [ParseRepository]
        rw [if_neg (fun hc => h1 hc.2), if_pos ⟨ht, hm⟩]
      · by_cases h2 : o.user = ""
        · refine ⟨.missingUser name, ?_, rfl⟩
          simp only [ParseRepository]
          rw [if_neg (fun hc => h1 hc.2), if_pos ⟨ht, h2⟩]
        · refine ⟨.missingPath name, ?_, rfl⟩
          simp only [ParseRepository]
          rw [if_neg (fun hc => h1 hc.2), if_neg (fun hc => h2 hc.2), if_pos ⟨ht, hm⟩]

/-- Claim C7, witness: a bare string parses as a local repository, and an
ssh object without a host is rejected with an error naming the repository. -/
theorem ParseRepository_spec_witness :
    ParseRepository (some "/home/u") "r1" (.str "/srv/code") =
      .ok ⟨"local", "/srv/code", "", 0, "", ""⟩ ∧
    (∃ e, ParseRepository (some "/home/u") "r2"
      (.obj ⟨"ssh", "/srv", "", 0, "bob", ""⟩) = .error e ∧ e.repoName = "r2") :=
  ⟨ParseRepository_spec.1 (some "/home/u") "r1" "/srv/code",
    ParseRepository_spec.2.2 (some "/home/u") "r2" ⟨"ssh", "/srv", "", 0, "bob", ""⟩
      (by decide) (by decide)⟩

/- ### Decimal rendering: round trip and character shape -/

/-- One step of decimal parsing: shift and add the digit value. -/
def parseDecStep (a : Nat) (c : Char) : Nat := a * 10 + (c.toNat - 48)

/-- Decimal parsing, left inverse of `decRepr`. -/
def parseDec (cs : List Char) : Nat := cs.foldl parseDecStep 0

theorem digitChar_val {k : Nat} (h : k < 10) : (Nat.digitChar k).toNat - 48 = k := by
  interval_cases k <;> decide

theorem decAux_foldl (fuel : Nat) : ∀ n acc a, n ≤ fuel →
    ∃ P, 0 < P ∧ n < P ∧
      List.foldl parseDecStep a (decAux fuel n acc) =
        List.foldl parseDecStep (a * P + n) acc := by
  induction fuel with
  | zero =>
    intro n acc a hle
    have hn : n = 0 := Nat.le_zero.mp hle
    subst hn
    refine ⟨10, by decide, by decide, ?_⟩
    show List.foldl parseDecStep a (Nat.digitChar (0 % 10) :: acc) = _
    rw [List.foldl_cons]
    have hv : parseDecStep a (Nat.digitChar (0 % 10)) = a * 10 + 0 := by
      unfold parseDecStep
      rw [digitChar_val (by decide)]
    rw [hv]
  | succ f ih =>
    intro n acc a hle
    by_cases hn : n < 10
    · refine ⟨10, by decide, hn, ?_⟩
      show List.foldl parseDecStep a (decAux (f + 1) n acc) = _
      unfold decAux
      rw [if_pos hn, List.foldl_cons]
      have hv : parseDecStep a (Nat.digitChar n) = a * 10 + n := by
        unfold parseDecStep
        rw [digitChar_val hn]
      rw [hv]
    · have hlt : n / 10 < n := Nat.div_lt_self (by omega) (by decide)
      have hdiv_le : n / 10 ≤ f := by omega
      obtain ⟨P1, hP1pos, hP1, hfold⟩ := ih (n / 10) (Nat.digitChar (n % 10) :: acc) a hdiv_le
      refine ⟨P1 * 10, Nat.mul_pos hP1pos (by decide), by omega, ?_⟩
      show List.foldl parseDecStep a (decAux (f + 1) n acc) = _
      unfold decAux
      rw [if_neg hn, hfold, List.foldl_cons]
      have hv : parseDecStep (a * P1 + n / 10) (Nat.digitChar (n % 10)) =
          (a * P1 + n / 10) * 10 + n % 10 := by
        unfold parseDecStep
        rw [digitChar_val (Nat.mod_lt n (by decide))]
      rw [hv]
      have harith : (a * P1 + n / 10) * 10 + n % 10 = a * (P1 * 10) + n := by
        calc (a * P1 + n / 10) * 10 + n % 10
            = a * (P1 * 10) + (n / 10 * 10 + n % 10) := by ring
          _ = a * (P1 * 10) + n := by omega
      rw [harith]

theorem parseDec_decRepr (n : Nat) : parseDec (decRepr n) = n := by
  obtain ⟨P, hpos, hlt, hfold⟩ := decAux_foldl n n [] 0 (Nat.le_refl n)
  unfold parseDec decRepr
  rw [hfold]
  simp

theorem decRepr_inj {m n : Nat} (h : decRepr m = decRepr n) : m = n := by
  have hm := parseDec_decRepr m
  rw [h, parseDec_decRepr n] at hm
  exact hm.symm

theorem decAux_chars (fuel : Nat) : ∀ n acc c, c ∈ decAux fuel n acc →
    c ∈ acc ∨ ∃ k, k < 10 ∧ c = Nat.digitChar k := by
  induction fuel with
  | zero =>
    intro n acc c hc
    rcases List.mem_cons.mp hc with rfl | hc
    · exact Or.inr ⟨n % 10, Nat.mod_lt n (by decide), rfl⟩
    · exact Or.inl hc
  | succ f ih =>
    intro n acc c hc
    by_cases hn : n < 10
    · unfold decAux at hc
      rw [if_pos hn] at hc
      rcases List.mem_cons.mp hc with rfl | hc
      · exact Or.inr ⟨n, hn, rfl⟩
      · exact Or.inl hc
    · unfold decAux at hc
      rw [if_neg hn] at hc
      rcases ih (n / 10) (Nat.digitChar (n % 10) :: acc) c hc with hc2 | hc2
      · rcases List.mem_cons.mp hc2 with rfl | hc3
        · exact Or.inr ⟨n % 10, Nat.mod_lt n (by decide), rfl⟩
        · exact Or.inl hc3
      · exact Or.inr hc2

theorem digitChar_ne_at {k : Nat} (h : k < 10) : Nat.digitChar k ≠ '@' := by
  interval_cases k <;> decide

theorem digitChar_ne_colon {k : Nat} (h : k < 10) : Nat.digitChar k ≠ ':' := by
  interval_cases k <;> decide

theorem decRepr_no_at (n : Nat) : '@' ∉ decRepr n := by
  intro hmem
  rcases decAux_chars n n [] '@' hmem with h | ⟨k, hk, hek⟩
  · simp at h
  · exact digitChar_ne_at hk hek.symm

theorem decRepr_no_colon (n : Nat) : ':' ∉ decRepr n := by
  intro hmem
  rcases decAux_chars n n [] ':' hmem with h | ⟨k, hk, hek⟩
  · simp at h
  · exact digitChar_ne_colon hk hek.symm

/- ### Splitting at a marker character -/

theorem append_marker_inj {c : Char} :
    ∀ (x1 : List Char) {x2 y1 y2 : List Char}, c ∉ x1 → c ∉ x2 →
      x1 ++ c :: y1 = x2 ++ c :: y2 → x1 = x2 ∧ y1 = y2 := by
  intro x1
  induction x1 with
  | nil =>
    intro x2 y1 y2 _ hx2 heq
    cases x2 with
    | nil => simpa using heq
    | cons b bs =>
      simp only [List.nil_append, List.cons_append, List.cons.injEq] at heq
      exact absurd (by rw [heq.1]; exact List.mem_cons_self b bs) hx2
  | cons a as ih =>
    intro x2 y1 y2 hx1 hx2 heq
    cases x2 with
    | nil =>
      simp only [List.nil_append, List.cons_append, List.cons.injEq] at heq
      exact absurd (by rw [← heq.1]; exact List.mem_cons_self a as) hx1
    | cons b bs =>
      simp only [List.cons_append, List.cons.injEq] at heq
      obtain ⟨rfl, heq2⟩ := heq
      have hih := ih (fun hm => hx1 (List.mem_cons_of_mem a hm))
        (fun hm => hx2 (List.mem_cons_of_mem a hm)) heq2
      exact ⟨by rw [hih.1], hih.2⟩

theorem append_marker_last_inj {c : Char} {x1 x2 y1 y2 : List Char}
    (hy1 : c ∉ y1) (hy2 : c ∉ y2) (heq : x1 ++ c :: y1 = x2 ++ c :: y2) :
    x1 = x2 ∧ y1 = y2 := by
  have hrev : y1.reverse ++ c :: x1.reverse = y2.reverse ++ c :: x2.reverse := by
    have hr := congrArg List.reverse heq
    simpa [List.reverse_append] using hr
  have h2 := append_marker_inj y1.reverse (by simpa using hy1) (by simpa using hy2) hrev
  constructor
  · have hx := congrArg List.reverse h2.2
    simpa using hx
  · have hy := congrArg List.reverse h2.1
    simpa using hy

theorem strAppend_data (a b : String) : (a ++ b).data = a.data ++ b.data := rfl

theorem strData_inj {a b : String} (h : a.data = b.data) : a = b :=
  congrArg String.mk h

theorem connectionKey_data (r : Repository) :
    (connectionKey r).data =
      r.user.data ++ '@' :: (r.host.data ++ ':' :: decRepr r.port) := by
  unfold connectionKey
  simp [strAppend_data, mk_data]

/-- Claim C4, counterexample to the claim as stated: the "%s@%s:%d" key is
not injective on (user, host, port) — a user containing "@" collides with a
host containing "@", so two descriptors differing in user and host can share
one pooled connection key. -/
theorem connectionKey_collision :
    connectionKey ⟨"ssh", "/p1", "c", 1, "a@b", "k1"⟩ =
      connectionKey ⟨"ssh", "/p2", "b@c", 1, "a", "k2"⟩ ∧
    ("a@b" : String) ≠ "a" ∧ ("c" : String) ≠ "b@c" := by
  decide

/-- Claim C4 (amended): the key is derived from exactly user, host and port,
so equal triples give equal keys; and distinct triples give distinct keys
provided the user fields contain no "@" (the counterexample shows this
proviso is necessary). -/
theorem connectionKey_spec :
    (∀ r s : Repository, r.user = s.user → r.host = s.host → r.port = s.port →
      connectionKey r = connectionKey s) ∧
    (∀ r s : Repository, '@' ∉ r.user.data → '@' ∉ s.user.data →
      connectionKey r = connectionKey s →
      r.user = s.user ∧ r.host = s.host ∧ r.port = s.port) := by
  constructor
  · intro r s h1 h2 h3
    unfold connectionKey
    rw [h1, h2, h3]
  · intro r s hu1 hu2 heq
    have hd := congrArg String.data heq
    rw [connectionKey_data, connectionKey_data] at hd
    have h1 := append_marker_inj r.user.data hu1 hu2 hd
    have h2 := append_marker_last_inj (decRepr_no_colon r.port)
      (decRepr_no_colon s.port) h1.2
    exact ⟨strData_inj h1.1, strData_inj h2.1, decRepr_inj h2.2⟩

/-- Claim C4, witness: equal triples share a key despite different paths and
key files, and with "@"-free users a shared key forces equal fields. -/
theorem connectionKey_spec_witness :
    connectionKey ⟨"ssh", "/p1", "h", 22, "alice", "k1"⟩ =
      connectionKey ⟨"ssh", "/p2", "h", 22, "alice", "k2"⟩ ∧
    (Repository.user ⟨"ssh", "/p1", "h", 22, "alice", "k1"⟩ =
      Repository.user ⟨"ssh", "/p2", "h", 22, "alice", "k2"⟩ ∧
     Repository.host ⟨"ssh", "/p1", "h", 22, "alice", "k1"⟩ =
      Repository.host ⟨"ssh", "/p2", "h", 22, "alice", "k2"⟩ ∧
     Repository.port ⟨"ssh", "/p1", "h", 22, "alice", "k1"⟩ =
      Repository.port ⟨"ssh", "/p2", "h", 22, "alice", "k2"⟩) :=
  ⟨connectionKey_spec.1 ⟨"ssh", "/p1", "h", 22, "alice", "k1"⟩
      ⟨"ssh", "/p2", "h", 22, "alice", "k2"⟩ rfl rfl rfl,
    connectionKey_spec.2 ⟨"ssh", "/p1", "h", 22, "alice", "k1"⟩
      ⟨"ssh", "/p2", "h", 22, "alice", "k2"⟩ (by decide) (by decide) (by decide)⟩

theorem erasePool_lookup_self (pool : PoolMap) (key : String) :
    lookupPool (erasePool pool key) key = none := by
  induction pool with
  | nil => rfl
  | cons kv rest ih =>
    obtain ⟨k0, v0⟩ := kv
    by_cases hk : k0 = key
    · simp [erasePool, hk, ih]
    · simp [erasePool, lookupPool, hk, ih]

theorem erasePool_lookup_other (pool : PoolMap) (key k : String) (hne : k ≠ key) :
    lookupPool (erasePool pool key) k = lookupPool pool k := by
  induction pool with
  | nil => rfl
  | cons kv rest ih =>
    obtain ⟨k0, v0⟩ := kv
    by_cases hk : k0 = key
    · have hk2 : k0 ≠ k := by
        rw [hk]
        exact fun hh => hne hh.symm
      simp [erasePool, lookupPool, hk, hk2, ih]
      rw [if_neg (fun hh => hne hh.symm)]
    · simp [erasePool, lookupPool, hk, ih]

theorem erasePool_lookup_sub (pool : PoolMap) (key k : String) (conn : SSHConnection)
    (h : lookupPool (erasePool pool key) k = some conn) :
    lookupPool pool k = some conn := by
  by_cases hk : k = key
  · subst hk
    rw [erasePool_lookup_self] at h
    exact Option.noConfusion h
  · rw [erasePool_lookup_other pool key k hk] at h
    exact h

/-- Claim C5: when the SFTP sub-session fails to establish after a
successful dial, connect closes the dialed transport session and returns
the error, and getConnection inserts nothing into the pool — every entry of
the resulting pool map was already present before the call. -/
theorem connect_closes_transport_on_sftp_failure (env : GetEnv) (c : SSHClient)
    (hread : env.readKeyOk = true) (hparse : env.parseKeyOk = true)
    (hdial : env.dial = some c) (hsftp : env.newSftp c = none) :
    sshConnect env.toConnectEnv = (.error .sftpFailed, [.closeClient c]) ∧
    ∀ (pool : PoolMap) (repo : Repository) (key : String) (conn : SSHConnection),
      lookupPool (getConnection env pool repo).2.1 key = some conn →
      lookupPool pool key = some conn := by
  have hconn : sshConnect env.toConnectEnv = (.error .sftpFailed, [.closeClient c]) := by
    unfold sshConnect
    simp [hread, hparse, hdial, hsftp]
  refine ⟨hconn, ?_⟩
  intro pool repo key conn hl
  simp only [getConnection] at hl
  cases hlp : lookupPool pool (connectionKey repo) with
  | none =>
    simp only [hlp, mkNewConn, hconn] at hl
    exact hl
  | some conn0 =>
    simp only [hlp] at hl
    by_cases hka : env.keepaliveOk = true
    · rw [if_pos hka] at hl
      exact hl
    · rw [if_neg hka] at hl
      simp only [mkNewConn, hconn] at hl
      exact erasePool_lookup_sub pool (connectionKey repo) key conn hl

/-- Claim C5, witness: a concrete environment whose dial succeeds and whose
SFTP layering fails yields the protocol error with the transport closed. -/
theorem connect_closes_transport_witness :
    sshConnect (GetEnv.toConnectEnv
      ⟨⟨true, true, some ⟨1⟩, fun _ => none⟩, true⟩) =
      (.error .sftpFailed, [.closeClient ⟨1⟩]) :=
  (connect_closes_transport_on_sftp_failure
    ⟨⟨true, true, some ⟨1⟩, fun _ => none⟩, true⟩ ⟨1⟩ rfl rfl rfl rfl).1

theorem sshPoolClose_trace :
    ∀ (pool : PoolMap) (kc : String × SSHConnection), kc ∈ pool →
      ∃ pre post, (sshPoolClose pool).2 =
        pre ++ CloseAction.closeSftp kc.2.sftp ::
          CloseAction.closeClient kc.2.client :: post := by
  intro pool
  induction pool with
  | nil =>
    intro kc h
    simp at h
  | cons hd rest ih =>
    intro kc hkc
    rcases List.mem_cons.mp hkc with rfl | hmem
    · exact ⟨[], (sshPoolClose rest).2, by simp [sshPoolClose]⟩
    · obtain ⟨pre, post, hp⟩ := ih kc hmem
      refine ⟨CloseAction.closeSftp hd.2.sftp :: CloseAction.closeClient hd.2.client :: pre,
        post, ?_⟩
      have hcons : (sshPoolClose (hd :: rest)).2 =
          CloseAction.closeSftp hd.2.sftp :: CloseAction.closeClient hd.2.client ::
            (sshPoolClose rest).2 := by
        simp [sshPoolClose]
      rw [hcons, hp]
      simp

/-- Claim C6: Close empties the pool map, and for every pooled connection
the action trace closes its SFTP sub-session immediately followed by its
transport session. -/
theorem sshPoolClose_spec (pool : PoolMap) :
    (sshPoolClose pool).1 = [] ∧
    ∀ kc ∈ pool, ∃ pre post,
      (sshPoolClose pool).2 =
        pre ++ CloseAction.closeSftp kc.2.sftp ::
          CloseAction.closeClient kc.2.client :: post :=
  ⟨rfl, fun kc hkc => sshPoolClose_trace pool kc hkc⟩

/-- Claim C6, witness at a one-entry pool. -/
theorem sshPoolClose_spec_witness :
    (sshPoolClose [("alice@h:22", ⟨⟨1⟩, ⟨2⟩⟩)]).1 = [] ∧
    ∃ pre post, (sshPoolClose [("alice@h:22", ⟨⟨1⟩, ⟨2⟩⟩)]).2 =
      pre ++ CloseAction.closeSftp ⟨2⟩ :: CloseAction.closeClient ⟨1⟩ :: post :=
  ⟨(sshPoolClose_spec [("alice@h:22", ⟨⟨1⟩, ⟨2⟩⟩)]).1,
    (sshPoolClose_spec [("alice@h:22", ⟨⟨1⟩, ⟨2⟩⟩)]).2
      ("alice@h:22", ⟨⟨1⟩, ⟨2⟩⟩) (by simp)⟩

/-- Claim C8: with open and stat succeeding, and under the SFTP library
contract that the single full-length read delivers the whole buffer unless
it reports an error, and reports "EOF" only at end of content, ReadFile
turns every non-"EOF" read error into a failure, and whenever it returns
without error the returned bytes are exactly the file content, whose length
was sized by the prior stat. -/
theorem remoteReadFile_spec (env : ReadEnv) (content : List Nat)
    (basePath path : String)
    (hopen : env.openOk = true) (hstat : env.statOk = true)
    (hfull : env.readErr = none → env.bytesRead = content.length)
    (heof : env.readErr = some "EOF" → env.bytesRead = content.length) :
    (∀ e, env.readErr = some e → e ≠ "EOF" →
      remoteReadFile env content basePath path = .error (.readFailed e)) ∧
    (∀ data, remoteReadFile env content basePath path = .ok data →
      data = content ∧ data.length = content.length) := by
  constructor
  · intro e he hne
    unfold remoteReadFile
    simp [hopen, hstat, he, hne]
  · intro data hok
    unfold remoteReadFile at hok
    simp only [hopen, hstat, Bool.not_true, Bool.false_eq_true, if_false] at hok
    cases hre : env.readErr with
    | none =>
      rw [hre] at hok
      have hb := hfull hre
      rw [hb] at hok
      simp at hok
      constructor
      · rw [← hok]
      · rw [← hok]
    | some e =>
      rw [hre] at hok
      by_cases he : e = "EOF"
      · subst he
        have hb := heof hre
        rw [hb] at hok
        simp at hok
        constructor
        · rw [← hok]
        · rw [← hok]
      · simp [he] at hok

/-- Claim C8, witness: a read that fails with a non-"EOF" error is surfaced
as an error rather than silently accepted. -/
theorem remoteReadFile_spec_witness :
    remoteReadFile ⟨true, true, 1, some "connection reset"⟩ [1, 2, 3] "/srv" "f" =
      .error (.readFailed "connection reset") :=
  (remoteReadFile_spec ⟨true, true, 1, some "connection reset"⟩ [1, 2, 3] "/srv" "f"
    rfl rfl (fun h => Option.noConfusion h)
    (fun h => absurd (Option.some.inj h) (by decide))).1
    "connection reset" rfl (by decide)
